import Mathlib

set_option autoImplicit false
set_option linter.unusedSectionVars false

/-!
Shallow embedding of the visibility propagation engine of `git-tree`
(`src/main.rs`, function `includes_excludes`) together with the supporting
line parser of the `git rev-list --parents` wire format and the hex decoder
of `src/git_id.rs` (`TryFrom<&[u8]> for GitId`).

The engine consumes a stream of edge records `(id, parents)` in reverse
topological order, maintains an arena `nodes : List NodeState` with a LIFO
`free_slots` list, and an Active Table `node_lookup` mapping commit ids to
slot indices (the Rust code uses a `HashMap`; we use an association list
whose keys are kept duplicate-free by construction, and we quantify over
permutations of it wherever the unspecified `HashMap` iteration order
matters).  Commit ids are abstracted to an arbitrary type with decidable
equality, since the engine only ever compares them for equality.
-/

namespace GitTree

/-- Tri-state node tag, from the `NodeState` enum inside `includes_excludes`.
`InvisibleChild` is the spec's `PendingInvisible`, `VisibleChild` the spec's
`VisibleLeaf`, `VisibleParent` the spec's `VisibleInterior`. -/
inductive NodeState where
  | InvisibleChild
  | VisibleParent
  | VisibleChild
deriving DecidableEq, Repr

/-- Whether this is a visible node (`NodeState::is_visible`). -/
def NodeState.is_visible (s : NodeState) : Bool :=
  decide (s ≠ NodeState.InvisibleChild)

variable {Id : Type} [DecidableEq Id]

/-- Lookup in the Active Table (`HashMap::get`), as an association-list find. -/
def alistGet (l : List (Id × Nat)) (k : Id) : Option Nat :=
  (l.find? (fun e => decide (e.1 = k))).map Prod.snd

/-- Removal from the Active Table (`HashMap::remove`). -/
def alistRemove (l : List (Id × Nat)) (k : Id) : List (Id × Nat) :=
  l.filter (fun e => decide (e.1 ≠ k))

/-- Insertion into the Active Table (`HashMap::insert`): replaces the value of
an existing key, here realized as remove-then-cons. -/
def alistInsert (l : List (Id × Nat)) (k : Id) (v : Nat) : List (Id × Nat) :=
  (k, v) :: alistRemove l k

/-- One line of `git rev-list --parents` output, already split: the commit id
followed by the ids of its parents. -/
structure EdgeRecord (Id : Type) where
  id : Id
  parents : List Id
deriving DecidableEq, Repr

/-- The mutable state of `includes_excludes` while streaming: the arena
`nodes`, the LIFO `free_slots` (pushes append on the right, `Vec::pop` takes
from the right), and the Active Table `node_lookup`. -/
structure EngineState (Id : Type) where
  nodes : List NodeState
  free_slots : List Nat
  node_lookup : List (Id × Nat)
deriving DecidableEq, Repr

/-- Reading `nodes.get(idx).unwrap()`.  Out-of-range indices make the Rust
code panic; they never occur on reachable states (the range invariants are
proved below), and the default returned here is never observable. -/
def stateAt (nodes : List NodeState) (idx : Nat) : NodeState :=
  (nodes[idx]?).getD NodeState.InvisibleChild

/-- State before streaming begins: one `VisibleChild` arena slot per merge
base, the Active Table seeded with the merge bases (later duplicates win,
as with `HashMap` collect), and an empty free list. -/
def initState (merge_bases : List Id) : EngineState Id where
  nodes := List.replicate merge_bases.length NodeState.VisibleChild
  free_slots := []
  node_lookup := merge_bases.enum.foldl (fun m e => alistInsert m e.2 e.1) []

/-- Resolution of the record's parents against the Active Table, in order,
before any mutation (the `parents.extend(...)` step): each parent id paired
with its slot index if present. -/
def resolveParents (s : EngineState Id) (r : EdgeRecord Id) : List (Id × Option Nat) :=
  r.parents.map (fun p => (p, alistGet s.node_lookup p))

/-- The `visible` flag: some resolved parent's state is visible.  Unresolved
parents contribute nothing (`filter_map` skips them). -/
def recordVisible (s : EngineState Id) (r : EdgeRecord Id) : Bool :=
  (resolveParents s r).any (fun pr =>
    match pr.2 with
    | some idx => (stateAt s.nodes idx).is_visible
    | none => false)

/-- The visible branch's drain loop: every resolved parent currently in state
`VisibleChild` is promoted to `VisibleParent` (reads go through the arena as
it is being updated, as `get_mut` does). -/
def promoteParents (nodes : List NodeState) (resolved : List (Id × Option Nat)) :
    List NodeState :=
  resolved.foldl (fun ns pr =>
    match pr.2 with
    | some idx =>
      if stateAt ns idx = NodeState.VisibleChild then ns.set idx NodeState.VisibleParent
      else ns
    | none => ns) nodes

/-- One iteration of the invisible branch's drain loop over a resolved parent:
if the parent's arena state is `InvisibleChild`, it is removed from the Active
Table and its slot pushed onto the free list.  The state check reads the
original arena (`nodes` is not written in this branch), exactly as the Rust
loop does. -/
def pruneStep (s : EngineState Id) (acc : List (Id × Nat) × List Nat)
    (pr : Id × Option Nat) : List (Id × Nat) × List Nat :=
  match pr.2 with
  | some parent_idx =>
    if s.nodes[parent_idx]? = some NodeState.InvisibleChild then
      (alistRemove acc.1 pr.1, acc.2 ++ [parent_idx])
    else acc
  | none => acc

/-- The invisible branch's drain loop over all resolved parents, starting from
the current Active Table and free list. -/
def pruneParents (s : EngineState Id) (resolved : List (Id × Option Nat)) :
    List (Id × Nat) × List Nat :=
  resolved.foldl (pruneStep s) (s.node_lookup, s.free_slots)

/-- Slot allocation for the new commit: `free_slots.pop()` reuses the most
recently pushed slot when the free list is nonempty, otherwise the arena
grows by one slot at the end. -/
def insertNew (s : EngineState Id) (id : Id) (new_state : NodeState) : EngineState Id :=
  match s.free_slots.getLast? with
  | some new_idx =>
    { nodes := s.nodes.set new_idx new_state
      free_slots := s.free_slots.dropLast
      node_lookup := alistInsert s.node_lookup id new_idx }
  | none =>
    { nodes := s.nodes ++ [new_state]
      free_slots := s.free_slots
      node_lookup := alistInsert s.node_lookup id s.nodes.length }

/-- Processing of one streamed edge record: the body of the `while let` loop
of `includes_excludes` after the line has been split into id and parents. -/
def processRecord (s : EngineState Id) (r : EdgeRecord Id) : EngineState Id :=
  let resolved := resolveParents s r
  if recordVisible s r then
    insertNew { s with nodes := promoteParents s.nodes resolved } r.id NodeState.VisibleChild
  else
    let pruned := pruneParents s resolved
    insertNew { nodes := s.nodes, free_slots := pruned.2, node_lookup := pruned.1 } r.id
      NodeState.InvisibleChild

/-- The whole streaming loop, from the seeded state. -/
def runEngine (merge_bases : List Id) (stream : List (EdgeRecord Id)) : EngineState Id :=
  stream.foldl processRecord (initState merge_bases)

/-- Result extraction, includes side: entries of the Active Table whose slot
holds `VisibleChild`.  Parameterized by the list of table entries so that the
unspecified `HashMap` iteration order can be quantified over. -/
def includesOfEntries (nodes : List NodeState) (entries : List (Id × Nat)) : List Id :=
  entries.filterMap (fun e =>
    if stateAt nodes e.2 = NodeState.VisibleChild then some e.1 else none)

/-- Result extraction, excludes side: entries whose slot holds
`InvisibleChild`; `VisibleParent` entries are emitted by neither side. -/
def excludesOfEntries (nodes : List NodeState) (entries : List (Id × Nat)) : List Id :=
  entries.filterMap (fun e =>
    if stateAt nodes e.2 = NodeState.InvisibleChild then some e.1 else none)

/-- The function `includes_excludes`, restricted to its pure core: seed the
merge bases, stream the records, scan the final Active Table. -/
def includes_excludes (merge_bases : List Id) (stream : List (EdgeRecord Id)) :
    List Id × List Id :=
  let s := runEngine merge_bases stream
  (includesOfEntries s.nodes s.node_lookup, excludesOfEntries s.nodes s.node_lookup)

/-!
Line parsing.  `includes_excludes` cuts each stream line (bytes, newline
already stripped) into maximal space-free ranges: the indices of the space
bytes, followed by the line length, delimit the id ranges; this is exactly
splitting on the space byte while keeping empty fields.  The first range is
the commit id (`id_ranges.next().expect("empty rev-list output line")`), the
remaining ranges are the parents.
-/

/-- Splitting of a line (list of bytes) at every space byte (32), keeping
empty fields, as the index-range iterator of `includes_excludes` does:
`n` spaces always produce exactly `n + 1` fields. -/
def splitOnSpace : List Nat → List (List Nat)
  | [] => [[]]
  | b :: rest =>
    let r := splitOnSpace rest
    if b = 32 then [] :: r
    else
      match r with
      | f :: tail => (b :: f) :: tail
      | [] => [[b]]

/-- Parsing of one stream line into an edge record.  `none` models the
`expect("empty rev-list output line")` panic, taken when the range iterator
yields no first range at all. -/
def parseLine (line : List Nat) : Option (EdgeRecord (List Nat)) :=
  match splitOnSpace line with
  | [] => none
  | id :: ps => some { id := id, parents := ps }

/-!
Hex decoding, from `src/git_id.rs` (`impl TryFrom<&[u8]> for GitId`).  The
source is modelled byte-for-byte, including its two slips: the uppercase
match arm reads `b'A'..=b'A'` (so only `A` itself is accepted among the
uppercase digits), and the byte is assembled as `hi << 4 + lo`, which by
Rust operator precedence is `hi << (4 + lo)` — panicking in debug builds
whenever `4 + lo >= 8`, i.e. whenever the low nibble is at least 4.
-/

/-- Result of `GitId::try_from`: a decoded byte string, the `NotHexError`
value, or a debug-build arithmetic panic (shift amount overflow). -/
inductive TryFromResult where
  | ok : List Nat → TryFromResult
  | notHex : TryFromResult
  | panicked : TryFromResult
deriving DecidableEq, Repr

/-- The helper `hex_to_nibble`, with its match arms in source order; note the
third arm covers only byte 65 (`b'A'..=b'A'` as written). -/
def hex_to_nibble (hex : Nat) : Option Nat :=
  if 48 ≤ hex ∧ hex ≤ 57 then some (hex - 48)
  else if 97 ≤ hex ∧ hex ≤ 102 then some (hex - 97 + 10)
  else if 65 ≤ hex ∧ hex ≤ 65 then some (hex - 65 + 10)
  else none

/-- The `try_from` loop over two-byte chunks.  A lone final byte gets an
implicit low nibble of 0 (`unwrap_or(Ok(0))`).  The assembled byte is
`hi <<< (4 + lo)` on `u8`: shift amounts of 8 or more panic in debug builds
(modelled as `panicked`); otherwise bits shifted out are discarded, hence
the `% 256`. -/
def git_id_try_from : List Nat → TryFromResult
  | [] => TryFromResult.ok []
  | [c0] =>
    match hex_to_nibble c0 with
    | none => TryFromResult.notHex
    | some hi => TryFromResult.ok [hi * 2 ^ 4 % 256]
  | c0 :: c1 :: rest =>
    match hex_to_nibble c0 with
    | none => TryFromResult.notHex
    | some hi =>
      match hex_to_nibble c1 with
      | none => TryFromResult.notHex
      | some lo =>
        if 8 ≤ 4 + lo then TryFromResult.panicked
        else
          match git_id_try_from rest with
          | TryFromResult.ok bs => TryFromResult.ok (hi * 2 ^ (4 + lo) % 256 :: bs)
          | e => e

/-- What the spec asserts the decoder does (the i-th output byte is sixteen
times the value of the first digit of the i-th pair plus the value of the
second, all hex digits accepted): used only to compare against
`git_id_try_from` above. -/
def spec_hex_digit (hex : Nat) : Option Nat :=
  if 48 ≤ hex ∧ hex ≤ 57 then some (hex - 48)
  else if 97 ≤ hex ∧ hex ≤ 102 then some (hex - 97 + 10)
  else if 65 ≤ hex ∧ hex ≤ 70 then some (hex - 65 + 10)
  else none

/-- Spec-side decoder for even-length hex strings (see `spec_hex_digit`). -/
def spec_hex_decode : List Nat → Option (List Nat)
  | [] => some []
  | [_] => none
  | c0 :: c1 :: rest =>
    match spec_hex_digit c0, spec_hex_digit c1, spec_hex_decode rest with
    | some hi, some lo, some bs => some ((16 * hi + lo) :: bs)
    | _, _, _ => none

/-! ### Association-list lemmas -/

theorem mem_alistRemove {l : List (Id × Nat)} {k : Id} {e : Id × Nat} :
    e ∈ alistRemove l k ↔ e ∈ l ∧ e.1 ≠ k := by
  simp [alistRemove, List.mem_filter]

theorem alistRemove_sublist (l : List (Id × Nat)) (k : Id) :
    List.Sublist (alistRemove l k) l :=
  List.filter_sublist l

theorem alistGet_cons (e : Id × Nat) (t : List (Id × Nat)) (k : Id) :
    alistGet (e :: t) k = if e.1 = k then some e.2 else alistGet t k := by
  by_cases h : e.1 = k <;> simp [alistGet, List.find?_cons, h]

theorem alistRemove_cons (e : Id × Nat) (t : List (Id × Nat)) (k : Id) :
    alistRemove (e :: t) k = if e.1 = k then alistRemove t k else e :: alistRemove t k := by
  by_cases h : e.1 = k <;> simp [alistRemove, List.filter_cons, h]

theorem alistGet_insert_self (l : List (Id × Nat)) (k : Id) (v : Nat) :
    alistGet (alistInsert l k v) k = some v := by
  simp [alistInsert, alistGet_cons]

theorem alistGet_remove (l : List (Id × Nat)) (k k' : Id) :
    alistGet (alistRemove l k) k' = if k' = k then none else alistGet l k' := by
  induction l with
  | nil => simp [alistGet, alistRemove]
  | cons e t ih =>
    rw [alistRemove_cons, alistGet_cons]
    by_cases hek : e.1 = k
    · rw [if_pos hek, ih]
      by_cases hk : k' = k
      · simp [hk]
      · have : e.1 ≠ k' := by rw [hek]; exact fun h => hk h.symm
        simp [if_neg hk, alistGet_cons, this]
    · rw [if_neg hek, alistGet_cons]
      by_cases hek' : e.1 = k'
      · have hk : ¬ k' = k := by rw [← hek']; exact hek
        simp [hek', if_neg hk]
      · rw [if_neg hek', if_neg hek', ih]

theorem alistGet_insert_ne (l : List (Id × Nat)) (k k' : Id) (v : Nat) (h : k' ≠ k) :
    alistGet (alistInsert l k v) k' = alistGet l k' := by
  have hne : (k, v).1 ≠ k' := fun he => h he.symm
  rw [alistInsert, alistGet_cons, if_neg hne, alistGet_remove, if_neg h]

theorem alistGet_mem {l : List (Id × Nat)} {k : Id} {v : Nat}
    (h : alistGet l k = some v) : (k, v) ∈ l := by
  simp only [alistGet, Option.map_eq_some'] at h
  obtain ⟨e, he, hv⟩ := h
  have hmem := List.mem_of_find?_eq_some he
  have hkey : e.1 = k := by simpa using List.find?_some he
  have : e = (k, v) := by
    cases e
    simp_all
  rwa [this] at hmem

theorem alistGet_of_mem {l : List (Id × Nat)} (hk : (l.map Prod.fst).Nodup)
    {k : Id} {v : Nat} (h : (k, v) ∈ l) : alistGet l k = some v := by
  induction l with
  | nil => cases h
  | cons e t ih =>
    rw [List.map_cons] at hk
    have hk' := List.nodup_cons.mp hk
    rcases List.mem_cons.mp h with he | ht
    · rw [← he, alistGet_cons]
      simp
    · have hne : e.1 ≠ k := by
        intro hek
        exact hk'.1 (by simpa [hek] using List.mem_map_of_mem Prod.fst ht)
      rw [alistGet_cons, if_neg hne]
      exact ih hk'.2 ht

theorem keys_remove_nodup {l : List (Id × Nat)} (hk : (l.map Prod.fst).Nodup) (k : Id) :
    ((alistRemove l k).map Prod.fst).Nodup :=
  ((alistRemove_sublist l k).map Prod.fst).nodup hk

theorem keys_insert_nodup {l : List (Id × Nat)} (hk : (l.map Prod.fst).Nodup)
    (k : Id) (v : Nat) : ((alistInsert l k v).map Prod.fst).Nodup := by
  rw [show (alistInsert l k v).map Prod.fst = k :: (alistRemove l k).map Prod.fst from rfl]
  refine List.nodup_cons.mpr ⟨?_, keys_remove_nodup hk k⟩
  intro hmem
  obtain ⟨e, he, hek⟩ := List.mem_map.mp hmem
  exact (mem_alistRemove.mp he).2 hek

theorem values_nodup_eq_key {l : List (Id × Nat)} (hv : (l.map Prod.snd).Nodup)
    {p q : Id} {i : Nat} (hp : (p, i) ∈ l) (hq : (q, i) ∈ l) : p = q := by
  induction l with
  | nil => cases hp
  | cons e t ih =>
    rw [List.map_cons] at hv
    have hv' := List.nodup_cons.mp hv
    rcases List.mem_cons.mp hp with hpe | hpt <;> rcases List.mem_cons.mp hq with hqe | hqt
    · rw [← hpe] at hqe; exact congrArg Prod.fst hqe.symm
    · exact absurd (by simpa [← hpe] using List.mem_map_of_mem Prod.snd hqt) hv'.1
    · exact absurd (by simpa [← hqe] using List.mem_map_of_mem Prod.snd hpt) hv'.1
    · exact ih hv'.2 hpt hqt

/-! ### Closed form of the prune fold -/

/-- The pairs `(parent id, slot)` that the invisible branch's loop removes and
frees: the resolved parents whose arena state is `InvisibleChild`.  The loop's
decisions depend only on the pre-record state, so they can be read off the
resolved list directly. -/
def prunedPairs (s : EngineState Id) (resolved : List (Id × Option Nat)) :
    List (Id × Nat) :=
  resolved.filterMap (fun pr =>
    match pr.2 with
    | some idx =>
      if s.nodes[idx]? = some NodeState.InvisibleChild then some (pr.1, idx) else none
    | none => none)

theorem pruneFold_eq (s : EngineState Id) (resolved : List (Id × Option Nat)) :
    ∀ (lk : List (Id × Nat)) (fs : List Nat),
      resolved.foldl (pruneStep s) (lk, fs) =
        (lk.filter (fun e => decide (e.1 ∉ (prunedPairs s resolved).map Prod.fst)),
         fs ++ (prunedPairs s resolved).map Prod.snd) := by
  induction resolved with
  | nil =>
    intro lk fs
    simp [prunedPairs, List.filter_true]
  | cons pr rest ih =>
    intro lk fs
    rw [List.foldl_cons]
    rcases hpr : pr.2 with _ | idx
    · rw [show pruneStep s (lk, fs) pr = (lk, fs) from by simp [pruneStep, hpr]]
      rw [ih, show prunedPairs s (pr :: rest) = prunedPairs s rest from by
        simp [prunedPairs, List.filterMap_cons, hpr]]
    · by_cases hinv : s.nodes[idx]? = some NodeState.InvisibleChild
      · rw [show pruneStep s (lk, fs) pr = (alistRemove lk pr.1, fs ++ [idx]) from by
          simp [pruneStep, hpr, hinv]]
        rw [ih, show prunedPairs s (pr :: rest) = (pr.1, idx) :: prunedPairs s rest from by
          simp [prunedPairs, List.filterMap_cons, hpr, hinv]]
        refine Prod.ext ?_ ?_
        · show ((lk.filter _).filter _) = _
          rw [List.filter_filter]
          refine List.filter_congr ?_
          intro e _
          by_cases h1 : e.1 = pr.1 <;>
            by_cases h2 : e.1 ∈ (prunedPairs s rest).map Prod.fst <;>
              simp [alistRemove, h1, h2]
        · show fs ++ [idx] ++ _ = _
          simp
      · rw [show pruneStep s (lk, fs) pr = (lk, fs) from by simp [pruneStep, hpr, hinv]]
        rw [ih, show prunedPairs s (pr :: rest) = prunedPairs s rest from by
          simp [prunedPairs, List.filterMap_cons, hpr, hinv]]

theorem pruneParents_eq (s : EngineState Id) (resolved : List (Id × Option Nat)) :
    pruneParents s resolved =
      (s.node_lookup.filter (fun e => decide (e.1 ∉ (prunedPairs s resolved).map Prod.fst)),
       s.free_slots ++ (prunedPairs s resolved).map Prod.snd) :=
  pruneFold_eq s resolved s.node_lookup s.free_slots

theorem mem_prunedPairs_gen {s : EngineState Id} {resolved : List (Id × Option Nat)}
    {e : Id × Nat} :
    e ∈ prunedPairs s resolved ↔
      (e.1, some e.2) ∈ resolved ∧ s.nodes[e.2]? = some NodeState.InvisibleChild := by
  simp only [prunedPairs, List.mem_filterMap]
  constructor
  · rintro ⟨pr, hpr, hf⟩
    split at hf
    · rename_i idx heq
      split at hf
      · rename_i hinv
        cases hf
        refine ⟨?_, hinv⟩
        have : pr = (pr.1, some idx) := by rw [← heq]
        rwa [this] at hpr
      · cases hf
    · cases hf
  · rintro ⟨hmem, hinv⟩
    refine ⟨(e.1, some e.2), hmem, ?_⟩
    simp only
    rw [if_pos hinv]

theorem mem_prunedPairs {s : EngineState Id} {r : EdgeRecord Id} {e : Id × Nat} :
    e ∈ prunedPairs s (resolveParents s r) ↔
      e.1 ∈ r.parents ∧ alistGet s.node_lookup e.1 = some e.2 ∧
        s.nodes[e.2]? = some NodeState.InvisibleChild := by
  rw [mem_prunedPairs_gen]
  constructor
  · rintro ⟨hmem, hinv⟩
    obtain ⟨p, hp, hpe⟩ := List.mem_map.mp hmem
    have h1 : p = e.1 := congrArg Prod.fst hpe
    have h2 : alistGet s.node_lookup p = some e.2 := congrArg Prod.snd hpe
    exact ⟨h1 ▸ hp, h1 ▸ h2, hinv⟩
  · rintro ⟨hp, hg, hinv⟩
    refine ⟨?_, hinv⟩
    refine List.mem_map.mpr ⟨e.1, hp, ?_⟩
    rw [hg]

/-! ### Promote loop lemmas -/

theorem promoteParents_length (nodes : List NodeState)
    (resolved : List (Id × Option Nat)) :
    (promoteParents nodes resolved).length = nodes.length := by
  induction resolved generalizing nodes with
  | nil => rfl
  | cons pr rest ih =>
    have hstep : promoteParents nodes (pr :: rest) = promoteParents
        (match pr.2 with
         | some idx =>
           if stateAt nodes idx = NodeState.VisibleChild then
             nodes.set idx NodeState.VisibleParent
           else nodes
         | none => nodes) rest := rfl
    rw [hstep]
    rcases pr.2 with _ | idx
    · exact ih nodes
    · dsimp only
      split
      · rw [ih]
        exact List.length_set ..
      · exact ih nodes

theorem promoteParents_stateAt (nodes : List NodeState)
    (resolved : List (Id × Option Nat)) (i : Nat) :
    stateAt (promoteParents nodes resolved) i = stateAt nodes i ∨
      (stateAt nodes i = NodeState.VisibleChild ∧
       stateAt (promoteParents nodes resolved) i = NodeState.VisibleParent) := by
  induction resolved generalizing nodes with
  | nil => left; rfl
  | cons pr rest ih =>
    have hstep : ∀ ns : List NodeState,
        stateAt (promoteParents ns (pr :: rest)) i = stateAt (promoteParents
          (match pr.2 with
           | some idx =>
             if stateAt ns idx = NodeState.VisibleChild then ns.set idx NodeState.VisibleParent
             else ns
           | none => ns) rest) i := fun ns => rfl
    rw [hstep nodes]
    rcases hpr : pr.2 with _ | idx
    · exact ih nodes
    · dsimp only
      by_cases hvc : stateAt nodes idx = NodeState.VisibleChild
      · rw [if_pos hvc]
        have hmid : stateAt (nodes.set idx NodeState.VisibleParent) i = stateAt nodes i ∨
            (stateAt nodes i = NodeState.VisibleChild ∧
             stateAt (nodes.set idx NodeState.VisibleParent) i = NodeState.VisibleParent) := by
          by_cases hi : i = idx
          · subst hi
            by_cases hlen : i < nodes.length
            · right
              exact ⟨hvc, by simp [stateAt, List.getElem?_set_self hlen]⟩
            · left
              rw [List.set_eq_of_length_le (Nat.le_of_not_lt hlen)]
          · left
            simp [stateAt, List.getElem?_set_ne (fun h => hi h.symm)]
        rcases ih (nodes.set idx NodeState.VisibleParent) with h2 | h2
        · rcases hmid with h1 | h1
          · left; rw [h2, h1]
          · right; exact ⟨h1.1, by rw [h2, h1.2]⟩
        · rcases hmid with h1 | h1
          · right
            refine ⟨?_, h2.2⟩
            rw [← h1]
            exact h2.1
          · rw [h1.2] at h2
            exact absurd h2.1 (by decide)
      · rw [if_neg hvc]
        exact ih nodes

theorem promoteParents_is_visible (nodes : List NodeState)
    (resolved : List (Id × Option Nat)) (i : Nat) :
    (stateAt (promoteParents nodes resolved) i).is_visible =
      (stateAt nodes i).is_visible := by
  rcases promoteParents_stateAt nodes resolved i with h | h
  · rw [h]
  · rw [h.1, h.2]
    rfl

/-! ### Insertion lemmas -/

theorem insertNew_get_ne (s : EngineState Id) (id : Id) (st : NodeState) (k : Id)
    (h : k ≠ id) :
    alistGet (insertNew s id st).node_lookup k = alistGet s.node_lookup k := by
  rcases hl : s.free_slots.getLast? with _ | j <;>
    simp [insertNew, hl, alistGet_insert_ne _ _ _ _ h]

theorem insertNew_get_self (s : EngineState Id) (id : Id) (st : NodeState) :
    alistGet (insertNew s id st).node_lookup id =
      some (match s.free_slots.getLast? with
            | some j => j
            | none => s.nodes.length) := by
  rcases hl : s.free_slots.getLast? with _ | j <;>
    simp [insertNew, hl, alistGet_insert_self]

theorem insertNew_stateAt_self (s : EngineState Id) (id : Id) (st : NodeState)
    (hfree : ∀ i ∈ s.free_slots, i < s.nodes.length) :
    ∀ j, alistGet (insertNew s id st).node_lookup id = some j →
      stateAt (insertNew s id st).nodes j = st := by
  intro j hj
  rcases hl : s.free_slots.getLast? with _ | i
  · rw [insertNew_get_self, hl] at hj
    have hj' : s.nodes.length = j := by simpa using hj
    subst hj'
    simp only [insertNew, hl]
    simp [stateAt, List.getElem?_concat_length]
  · rw [insertNew_get_self, hl] at hj
    have hj' : i = j := by simpa using hj
    subst hj'
    have h2 : s.free_slots.dropLast ++ [i] = s.free_slots :=
      List.dropLast_append_getLast? i (by simp [hl])
    have hmem : i ∈ s.free_slots := by
      rw [← h2]
      simp
    have hlt : i < s.nodes.length := hfree i hmem
    simp only [insertNew, hl]
    simp [stateAt, List.getElem?_set_self hlt]

theorem insertNew_free_eq (s : EngineState Id) (id : Id) (st : NodeState) :
    (insertNew s id st).free_slots = s.free_slots.dropLast := by
  rcases hl : s.free_slots.getLast? with _ | j
  · simp only [insertNew, hl]
    rw [List.getLast?_eq_none_iff] at hl
    rw [hl]
    rfl
  · simp only [insertNew, hl]

theorem insertNew_get_self_of_getLast (s : EngineState Id) (id : Id) (st : NodeState)
    (j : Nat) (hl : s.free_slots.getLast? = some j) :
    alistGet (insertNew s id st).node_lookup id = some j := by
  rw [insertNew_get_self, hl]

theorem insertNew_stateAt_preserved (s : EngineState Id) (id : Id) (st : NodeState)
    (idx : Nat) (hidx : idx < s.nodes.length) (hnotfree : idx ∉ s.free_slots) :
    stateAt (insertNew s id st).nodes idx = stateAt s.nodes idx := by
  rcases hl : s.free_slots.getLast? with _ | j
  · simp only [insertNew, hl]
    simp [stateAt, List.getElem?_append_left hidx]
  · have h2 : s.free_slots.dropLast ++ [j] = s.free_slots :=
      List.dropLast_append_getLast? j (by simp [hl])
    have hmem : j ∈ s.free_slots := by
      rw [← h2]
      simp
    have hne : j ≠ idx := fun h => hnotfree (h ▸ hmem)
    simp only [insertNew, hl]
    simp [stateAt, List.getElem?_set_ne hne]

/-! ### The slot-management invariant -/

/-- Well-formedness of the engine state: the Active Table has no duplicate
keys, its slot values are pairwise distinct, the free list has no duplicate,
live slot values and free slots are disjoint, and all slot indices are in
arena range. -/
structure WF (s : EngineState Id) : Prop where
  keys_nodup : (s.node_lookup.map Prod.fst).Nodup
  values_nodup : (s.node_lookup.map Prod.snd).Nodup
  free_nodup : s.free_slots.Nodup
  disjoint : ∀ e ∈ s.node_lookup, e.2 ∉ s.free_slots
  values_lt : ∀ e ∈ s.node_lookup, e.2 < s.nodes.length
  free_lt : ∀ i ∈ s.free_slots, i < s.nodes.length

theorem values_insert_eq (l : List (Id × Nat)) (k : Id) (v : Nat) :
    (alistInsert l k v).map Prod.snd = v :: (alistRemove l k).map Prod.snd := rfl

theorem wf_insertNew (s : EngineState Id) (id : Id) (st : NodeState)
    (h : WF s) : WF (insertNew s id st) := by
  rcases hl : s.free_slots.getLast? with _ | j
  · have hfe : s.free_slots = [] := List.getLast?_eq_none_iff.mp hl
    simp only [insertNew, hl]
    refine ⟨keys_insert_nodup h.keys_nodup _ _, ?_, by simp [hfe], ?_, ?_, ?_⟩
    · rw [values_insert_eq]
      refine List.nodup_cons.mpr ⟨?_, ?_⟩
      · intro hmem
        obtain ⟨e, he, hev⟩ := List.mem_map.mp hmem
        have : e ∈ s.node_lookup := (mem_alistRemove.mp he).1
        exact absurd (hev ▸ h.values_lt e this) (Nat.lt_irrefl _)
      · exact (((alistRemove_sublist _ _).map Prod.snd).nodup h.values_nodup)
    · intro e _
      rw [hfe]
      simp
    · intro e he
      rcases List.mem_cons.mp he with he1 | he2
      · rw [he1]
        simp
      · have : e ∈ s.node_lookup := (mem_alistRemove.mp he2).1
        calc e.2 < s.nodes.length := h.values_lt e this
          _ < (s.nodes ++ [st]).length := by simp
    · intro i hi
      rw [hfe] at hi
      cases hi
  · have h2 : s.free_slots.dropLast ++ [j] = s.free_slots :=
      List.dropLast_append_getLast? j (by simp [hl])
    have hjmem : j ∈ s.free_slots := by
      rw [← h2]
      simp
    have hnd : (s.free_slots.dropLast ++ [j]).Nodup := by
      rw [h2]
      exact h.free_nodup
    have hjnotdrop : j ∉ s.free_slots.dropLast := by
      rcases List.nodup_append.mp hnd with ⟨_, _, hdisj⟩
      intro hj
      exact hdisj hj (by simp)
    have hdropmem : ∀ i ∈ s.free_slots.dropLast, i ∈ s.free_slots := fun i hi =>
      (List.dropLast_sublist s.free_slots).subset hi
    simp only [insertNew, hl]
    refine ⟨keys_insert_nodup h.keys_nodup _ _, ?_, ?_, ?_, ?_, ?_⟩
    · rw [values_insert_eq]
      refine List.nodup_cons.mpr ⟨?_, ?_⟩
      · intro hmem
        obtain ⟨e, he, hev⟩ := List.mem_map.mp hmem
        have : e ∈ s.node_lookup := (mem_alistRemove.mp he).1
        exact h.disjoint e this (hev ▸ hjmem)
      · exact (((alistRemove_sublist _ _).map Prod.snd).nodup h.values_nodup)
    · exact (List.dropLast_sublist s.free_slots).nodup h.free_nodup
    · intro e he
      rcases List.mem_cons.mp he with he1 | he2
      · rw [he1]
        exact hjnotdrop
      · have : e ∈ s.node_lookup := (mem_alistRemove.mp he2).1
        intro hmem
        exact h.disjoint e this (hdropmem _ hmem)
    · intro e he
      rw [List.length_set]
      rcases List.mem_cons.mp he with he1 | he2
      · rw [he1]
        exact h.free_lt j hjmem
      · exact h.values_lt e (mem_alistRemove.mp he2).1
    · intro i hi
      rw [List.length_set]
      exact h.free_lt i (hdropmem _ hi)

theorem filterMap_fst_sublist (l : List Id) (fp : Id → Option (Id × Nat))
    (h : ∀ p e, fp p = some e → e.1 = p) :
    List.Sublist ((l.filterMap fp).map Prod.fst) l := by
  induction l with
  | nil => simp
  | cons p t ih =>
    rw [List.filterMap_cons]
    rcases hfp : fp p with _ | e
    · exact ih.trans (List.sublist_cons_self p t)
    · rw [List.map_cons, h p e hfp]
      exact ih.cons₂ p

theorem prunedPairs_mem_lookup {s : EngineState Id} {r : EdgeRecord Id} {e : Id × Nat}
    (he : e ∈ prunedPairs s (resolveParents s r)) : e ∈ s.node_lookup := by
  have hg := (mem_prunedPairs.mp he).2.1
  have := alistGet_mem hg
  cases e
  exact this

theorem prunedPairs_keys_sublist (s : EngineState Id) (r : EdgeRecord Id) :
    List.Sublist ((prunedPairs s (resolveParents s r)).map Prod.fst) r.parents := by
  rw [prunedPairs, resolveParents, List.filterMap_map]
  refine filterMap_fst_sublist _ _ ?_
  intro p e hfp
  simp only [Function.comp] at hfp
  split at hfp
  · split at hfp
    · cases hfp
      rfl
    · cases hfp
  · cases hfp

theorem prunedPairs_snd_nodup (s : EngineState Id) (r : EdgeRecord Id)
    (h : WF s) (hnd : r.parents.Nodup) :
    ((prunedPairs s (resolveParents s r)).map Prod.snd).Nodup := by
  have hkeys : ((prunedPairs s (resolveParents s r)).map Prod.fst).Nodup :=
    (prunedPairs_keys_sublist s r).nodup hnd
  have hpairs : (prunedPairs s (resolveParents s r)).Nodup := hkeys.of_map _
  refine hpairs.map_on ?_
  intro x hx y hy hxy
  have hx' := prunedPairs_mem_lookup hx
  have hy' := prunedPairs_mem_lookup hy
  have hx2 : (x.1, x.2) ∈ s.node_lookup := by cases x; exact hx'
  have hy2 : (y.1, x.2) ∈ s.node_lookup := by
    rw [hxy]
    cases y
    exact hy'
  have hkey : x.1 = y.1 := values_nodup_eq_key h.values_nodup hx2 hy2
  cases x
  cases y
  simp_all

theorem wf_prune (s : EngineState Id) (r : EdgeRecord Id) (h : WF s)
    (hnd : r.parents.Nodup) :
    WF { nodes := s.nodes,
         free_slots := (pruneParents s (resolveParents s r)).2,
         node_lookup := (pruneParents s (resolveParents s r)).1 } := by
  rw [pruneParents_eq]
  have hmemfilter : ∀ e, e ∈ (pruneParents s (resolveParents s r)).1 ↔
      e ∈ s.node_lookup ∧
        e.1 ∉ (prunedPairs s (resolveParents s r)).map Prod.fst := by
    intro e
    rw [pruneParents_eq]
    simp [List.mem_filter]
  have hfreedmem : ∀ i, i ∈ (prunedPairs s (resolveParents s r)).map Prod.snd →
      ∃ q ∈ prunedPairs s (resolveParents s r), q.2 = i := by
    intro i hi
    obtain ⟨q, hq, hqi⟩ := List.mem_map.mp hi
    exact ⟨q, hq, hqi⟩
  refine ⟨?_, ?_, ?_, ?_, ?_, ?_⟩
  · exact ((List.filter_sublist _).map Prod.fst).nodup h.keys_nodup
  · exact ((List.filter_sublist _).map Prod.snd).nodup h.values_nodup
  · rw [List.nodup_append]
    refine ⟨h.free_nodup, prunedPairs_snd_nodup s r h hnd, ?_⟩
    intro i hi hi'
    obtain ⟨q, hq, hqi⟩ := hfreedmem i hi'
    exact h.disjoint q (prunedPairs_mem_lookup hq) (hqi ▸ hi)
  · intro e he
    have hef := (List.mem_filter.mp he)
    have hIn : e ∈ s.node_lookup := hef.1
    have hNot : e.1 ∉ (prunedPairs s (resolveParents s r)).map Prod.fst := by
      simpa using hef.2
    rw [List.mem_append]
    rintro (hmem | hmem)
    · exact h.disjoint e hIn hmem
    · obtain ⟨q, hq, hqi⟩ := hfreedmem _ hmem
      have hqIn : q ∈ s.node_lookup := prunedPairs_mem_lookup hq
      have hq2 : (q.1, q.2) ∈ s.node_lookup := by cases q; exact hqIn
      have he2 : (e.1, q.2) ∈ s.node_lookup := by
        rw [hqi]
        cases e
        exact hIn
      have : q.1 = e.1 := values_nodup_eq_key h.values_nodup hq2 he2
      exact hNot (this ▸ List.mem_map_of_mem Prod.fst hq)
  · intro e he
    exact h.values_lt e (List.mem_filter.mp he).1
  · intro i hi
    rcases List.mem_append.mp hi with hmem | hmem
    · exact h.free_lt i hmem
    · obtain ⟨q, hq, hqi⟩ := hfreedmem i hmem
      exact hqi ▸ h.values_lt q (prunedPairs_mem_lookup hq)

theorem wf_processRecord (s : EngineState Id) (r : EdgeRecord Id)
    (h : WF s) (hnd : r.parents.Nodup) : WF (processRecord s r) := by
  rw [processRecord]
  by_cases hv : recordVisible s r
  · rw [if_pos hv]
    refine wf_insertNew _ _ _ ?_
    have hlen := promoteParents_length s.nodes (resolveParents s r)
    exact ⟨h.keys_nodup, h.values_nodup, h.free_nodup, h.disjoint,
      fun e he => hlen ▸ h.values_lt e he, fun i hi => hlen ▸ h.free_lt i hi⟩
  · rw [if_neg hv]
    exact wf_insertNew _ _ _ (wf_prune s r h hnd)

/-! ### Well-formedness of the initial and reachable states -/

theorem initState_fold_invariant (bases : List Id) :
    ∀ (n : Nat) (start : List (Id × Nat)),
      (start.map Prod.fst).Nodup → (start.map Prod.snd).Nodup →
      (∀ e ∈ start, e.2 < n) →
      (((List.enumFrom n bases).foldl (fun m e => alistInsert m e.2 e.1) start).map
          Prod.fst).Nodup ∧
      (((List.enumFrom n bases).foldl (fun m e => alistInsert m e.2 e.1) start).map
          Prod.snd).Nodup ∧
      (∀ e ∈ (List.enumFrom n bases).foldl (fun m e => alistInsert m e.2 e.1) start,
        e.2 < n + bases.length) := by
  induction bases with
  | nil =>
    intro n start h1 h2 h3
    exact ⟨h1, h2, fun e he => Nat.lt_of_lt_of_le (h3 e he) (Nat.le_add_right n 0)⟩
  | cons b t ih =>
    intro n start h1 h2 h3
    rw [List.enumFrom_cons, List.foldl_cons]
    have h1' : ((alistInsert start b n).map Prod.fst).Nodup := keys_insert_nodup h1 b n
    have h2' : ((alistInsert start b n).map Prod.snd).Nodup := by
      rw [values_insert_eq]
      refine List.nodup_cons.mpr ⟨?_, ?_⟩
      · intro hmem
        obtain ⟨e, he, hev⟩ := List.mem_map.mp hmem
        exact absurd (hev ▸ h3 e (mem_alistRemove.mp he).1) (Nat.lt_irrefl n)
      · exact ((alistRemove_sublist _ _).map Prod.snd).nodup h2
    have h3' : ∀ e ∈ alistInsert start b n, e.2 < n + 1 := by
      intro e he
      rcases List.mem_cons.mp he with he1 | he2
      · rw [he1]
        exact Nat.lt_succ_self n
      · exact Nat.lt_succ_of_lt (h3 e (mem_alistRemove.mp he2).1)
    obtain ⟨g1, g2, g3⟩ := ih (n + 1) (alistInsert start b n) h1' h2' h3'
    refine ⟨g1, g2, ?_⟩
    intro e he
    have := g3 e he
    rw [List.length_cons]
    omega

theorem wf_initState (bases : List Id) : WF (initState bases) := by
  have hfold := initState_fold_invariant bases 0 [] (by simp) (by simp) (by simp)
  have henum : bases.enum = List.enumFrom 0 bases := rfl
  refine ⟨?_, ?_, ?_, ?_, ?_, ?_⟩
  · rw [show (initState bases).node_lookup =
      (List.enumFrom 0 bases).foldl (fun m e => alistInsert m e.2 e.1) [] from by
        rw [initState, ← henum]]
    exact hfold.1
  · rw [show (initState bases).node_lookup =
      (List.enumFrom 0 bases).foldl (fun m e => alistInsert m e.2 e.1) [] from by
        rw [initState, ← henum]]
    exact hfold.2.1
  · exact List.nodup_nil
  · intro e _
    simp [initState]
  · intro e he
    rw [show (initState bases).node_lookup =
      (List.enumFrom 0 bases).foldl (fun m e => alistInsert m e.2 e.1) [] from by
        rw [initState, ← henum]] at he
    have := hfold.2.2 e he
    simp only [initState, List.length_replicate]
    omega
  · intro i hi
    simp [initState] at hi

theorem wf_foldl (l : List (EdgeRecord Id)) (hl : ∀ r ∈ l, r.parents.Nodup) :
    ∀ s : EngineState Id, WF s → WF (l.foldl processRecord s) := by
  induction l with
  | nil => exact fun s hs => hs
  | cons r t ih =>
    intro s hs
    rw [List.foldl_cons]
    exact ih (fun x hx => hl x (List.mem_cons_of_mem r hx)) _
      (wf_processRecord s r hs (hl r (List.mem_cons_self r t)))

theorem wf_runEngine (bases : List Id) (stream : List (EdgeRecord Id))
    (h : ∀ r ∈ stream, r.parents.Nodup) : WF (runEngine bases stream) :=
  wf_foldl stream h _ (wf_initState bases)

/-! ### Duplicate-free keys on all reachable states, unconditionally -/

theorem insertNew_keys_nodup (s : EngineState Id) (id : Id) (st : NodeState)
    (h : (s.node_lookup.map Prod.fst).Nodup) :
    ((insertNew s id st).node_lookup.map Prod.fst).Nodup := by
  rcases hl : s.free_slots.getLast? with _ | j <;>
    simp only [insertNew, hl] <;> exact keys_insert_nodup h _ _

theorem processRecord_keys_nodup (s : EngineState Id) (r : EdgeRecord Id)
    (h : (s.node_lookup.map Prod.fst).Nodup) :
    ((processRecord s r).node_lookup.map Prod.fst).Nodup := by
  rw [processRecord]
  by_cases hv : recordVisible s r
  · rw [if_pos hv]
    exact insertNew_keys_nodup _ _ _ h
  · rw [if_neg hv]
    refine insertNew_keys_nodup _ _ _ ?_
    rw [pruneParents_eq]
    exact ((List.filter_sublist _).map Prod.fst).nodup h

theorem runEngine_keys_nodup (bases : List Id) (stream : List (EdgeRecord Id)) :
    ((runEngine bases stream).node_lookup.map Prod.fst).Nodup := by
  rw [runEngine]
  have : ∀ (l : List (EdgeRecord Id)) (s : EngineState Id),
      (s.node_lookup.map Prod.fst).Nodup →
      ((l.foldl processRecord s).node_lookup.map Prod.fst).Nodup := by
    intro l
    induction l with
    | nil => exact fun s hs => hs
    | cons r t ih =>
      intro s hs
      rw [List.foldl_cons]
      exact ih _ (processRecord_keys_nodup s r hs)
  exact this stream _ (wf_initState bases).keys_nodup

/-! ### Extraction lemmas -/

theorem mem_includesOfEntries {nodes : List NodeState} {entries : List (Id × Nat)} {x : Id} :
    x ∈ includesOfEntries nodes entries ↔
      ∃ idx, (x, idx) ∈ entries ∧ stateAt nodes idx = NodeState.VisibleChild := by
  simp only [includesOfEntries, List.mem_filterMap]
  constructor
  · rintro ⟨e, he, hf⟩
    by_cases hs : stateAt nodes e.2 = NodeState.VisibleChild
    · rw [if_pos hs] at hf
      cases hf
      exact ⟨e.2, by simpa using he, hs⟩
    · rw [if_neg hs] at hf; cases hf
  · rintro ⟨idx, hmem, hs⟩
    exact ⟨(x, idx), hmem, by simp [hs]⟩

theorem mem_excludesOfEntries {nodes : List NodeState} {entries : List (Id × Nat)} {x : Id} :
    x ∈ excludesOfEntries nodes entries ↔
      ∃ idx, (x, idx) ∈ entries ∧ stateAt nodes idx = NodeState.InvisibleChild := by
  simp only [excludesOfEntries, List.mem_filterMap]
  constructor
  · rintro ⟨e, he, hf⟩
    by_cases hs : stateAt nodes e.2 = NodeState.InvisibleChild
    · rw [if_pos hs] at hf
      cases hf
      exact ⟨e.2, by simpa using he, hs⟩
    · rw [if_neg hs] at hf; cases hf
  · rintro ⟨idx, hmem, hs⟩
    exact ⟨(x, idx), hmem, by simp [hs]⟩

theorem splitOnSpace_ne_nil (line : List Nat) : splitOnSpace line ≠ [] := by
  induction line with
  | nil => simp [splitOnSpace]
  | cons b rest ih =>
    simp only [splitOnSpace]
    by_cases hb : b = 32
    · simp [hb]
    · rw [if_neg hb]
      rcases h : splitOnSpace rest with _ | ⟨f, tail⟩ <;> simp

theorem stateAt_of_getElem {nodes : List NodeState} {idx : Nat} {st : NodeState}
    (h : nodes[idx]? = some st) : stateAt nodes idx = st := by
  simp [stateAt, h]

theorem getElem?_of_stateAt (nodes : List NodeState) (idx : Nat)
    (h : idx < nodes.length) : nodes[idx]? = some (stateAt nodes idx) := by
  simp [stateAt, List.getElem?_eq_getElem h]

theorem alistGet_filter_keys (l : List (Id × Nat)) (K : List Id) (p : Id) :
    alistGet (l.filter (fun e => decide (e.1 ∉ K))) p =
      if p ∈ K then none else alistGet l p := by
  induction l with
  | nil => simp [alistGet]
  | cons e t ih =>
    by_cases he : e.1 ∈ K
    · rw [show (e :: t).filter (fun e => decide (e.1 ∉ K)) =
          t.filter (fun e => decide (e.1 ∉ K)) from by simp [List.filter_cons, he]]
      rw [ih]
      by_cases hp : p ∈ K
      · simp [hp]
      · rw [if_neg hp, if_neg hp, alistGet_cons]
        have hep : e.1 ≠ p := fun h => hp (h ▸ he)
        rw [if_neg hep]
    · rw [show (e :: t).filter (fun e => decide (e.1 ∉ K)) =
          e :: t.filter (fun e => decide (e.1 ∉ K)) from by simp [List.filter_cons, he]]
      by_cases hp : p ∈ K
      · rw [if_pos hp, alistGet_cons]
        have hep : e.1 ≠ p := fun h => he (h ▸ hp)
        rw [if_neg hep, ih, if_pos hp]
      · rw [if_neg hp, alistGet_cons, alistGet_cons]
        by_cases hep : e.1 = p
        · rw [if_pos hep, if_pos hep]
        · rw [if_neg hep, if_neg hep, ih, if_neg hp]

/-- Characterization of the `visible` flag: the record is classified visible
exactly when some parent resolves in the Active Table to a slot whose state
is visible. -/
theorem recordVisible_iff (s : EngineState Id) (r : EdgeRecord Id) :
    recordVisible s r = true ↔
      ∃ p ∈ r.parents, ∃ idx, alistGet s.node_lookup p = some idx ∧
        (stateAt s.nodes idx).is_visible = true := by
  rw [recordVisible, List.any_eq_true]
  constructor
  · rintro ⟨pr, hpr, hf⟩
    obtain ⟨p, hp, hpe⟩ := List.mem_map.mp hpr
    rw [← hpe] at hf
    split at hf
    · rename_i idx heq
      exact ⟨p, hp, idx, heq, hf⟩
    · cases hf
  · rintro ⟨p, hp, idx, hget, hvis⟩
    refine ⟨(p, alistGet s.node_lookup p), List.mem_map_of_mem _ hp, ?_⟩
    show (match alistGet s.node_lookup p with
      | some idx => (stateAt s.nodes idx).is_visible
      | none => false) = true
    rw [hget]
    exact hvis

/-- The free list after pruning, as an append. -/
theorem prune_free_eq (s : EngineState Id) (r : EdgeRecord Id) :
    (pruneParents s (resolveParents s r)).2 =
      s.free_slots ++ (prunedPairs s (resolveParents s r)).map Prod.snd := by
  rw [pruneParents_eq]

/-- The Active Table after pruning, as a filter. -/
theorem prune_lookup_eq (s : EngineState Id) (r : EdgeRecord Id) :
    (pruneParents s (resolveParents s r)).1 =
      s.node_lookup.filter
        (fun e => decide (e.1 ∉ (prunedPairs s (resolveParents s r)).map Prod.fst)) := by
  rw [pruneParents_eq]

/-- The record's own commit is always inserted, and its slot holds
`VisibleChild` or `InvisibleChild` according to the `visible` flag. -/
theorem processRecord_self_state (s : EngineState Id) (r : EdgeRecord Id)
    (hlk : ∀ e ∈ s.node_lookup, e.2 < s.nodes.length)
    (hfree : ∀ i ∈ s.free_slots, i < s.nodes.length) :
    ∃ j, alistGet (processRecord s r).node_lookup r.id = some j ∧
      stateAt (processRecord s r).nodes j =
        (if recordVisible s r then NodeState.VisibleChild
         else NodeState.InvisibleChild) := by
  rw [processRecord]
  by_cases hv : recordVisible s r
  · rw [if_pos hv, if_pos hv]
    have hfree1 : ∀ i ∈ ({ s with
        nodes := promoteParents s.nodes (resolveParents s r) } : EngineState Id).free_slots,
        i < ({ s with
          nodes := promoteParents s.nodes (resolveParents s r) } : EngineState Id).nodes.length := by
      intro i hi
      show i < (promoteParents s.nodes (resolveParents s r)).length
      rw [promoteParents_length]
      exact hfree i hi
    exact ⟨_, insertNew_get_self _ r.id _,
      insertNew_stateAt_self _ r.id _ hfree1 _ (insertNew_get_self _ r.id _)⟩
  · rw [if_neg hv, if_neg hv]
    have hfree2 : ∀ i ∈ (pruneParents s (resolveParents s r)).2, i < s.nodes.length := by
      intro i hi
      rw [prune_free_eq] at hi
      rcases List.mem_append.mp hi with hmem | hmem
      · exact hfree i hmem
      · obtain ⟨q, hq, hqi⟩ := List.mem_map.mp hmem
        exact hqi ▸ hlk q (prunedPairs_mem_lookup hq)
    exact ⟨_, insertNew_get_self _ r.id _,
      insertNew_stateAt_self
        (⟨s.nodes, (pruneParents s (resolveParents s r)).2,
          (pruneParents s (resolveParents s r)).1⟩ : EngineState Id) r.id _ hfree2 _
        (insertNew_get_self _ r.id _)⟩

/-! ### Claim theorems -/

/-- C1: for every processed edge record, the record's commit is classified
visible (its slot holds a visible state) if and only if at least one of its
parents that resolves in the Active Table has a visible state
(`VisibleChild`/`VisibleParent`, the spec's `VisibleLeaf`/`VisibleInterior`);
a parent id absent from the table contributes no visibility, and processing
is total — a lookup miss causes no error. -/
theorem visibility_rule (s : EngineState Id) (r : EdgeRecord Id)
    (hlk : ∀ e ∈ s.node_lookup, e.2 < s.nodes.length)
    (hfree : ∀ i ∈ s.free_slots, i < s.nodes.length) :
    ∃ j, alistGet (processRecord s r).node_lookup r.id = some j ∧
      ((stateAt (processRecord s r).nodes j).is_visible = true ↔
        ∃ p ∈ r.parents, ∃ idx, alistGet s.node_lookup p = some idx ∧
          (stateAt s.nodes idx).is_visible = true) := by
  obtain ⟨j, hj, hst⟩ := processRecord_self_state s r hlk hfree
  refine ⟨j, hj, ?_⟩
  by_cases hv : recordVisible s r
  · rw [if_pos hv] at hst
    rw [hst]
    constructor
    · intro _
      exact (recordVisible_iff s r).mp hv
    · intro _
      rfl
  · rw [if_neg hv] at hst
    rw [hst]
    constructor
    · intro hfalse
      exact absurd hfalse (by decide)
    · intro hex
      exact absurd ((recordVisible_iff s r).mpr hex) hv

/-- C1 (witness): the rule at a concrete state — the record `1 → [0]`
processed on the table seeded with base `0`. -/
theorem visibility_rule_witness :
    ∃ j, alistGet (processRecord (initState [0]) ⟨1, [0]⟩).node_lookup 1 = some j ∧
      ((stateAt (processRecord (initState [0]) ⟨1, [0]⟩).nodes j).is_visible = true ↔
        ∃ p ∈ [0], ∃ idx, alistGet (initState ([0] : List Nat)).node_lookup p = some idx ∧
          (stateAt (initState ([0] : List Nat)).nodes idx).is_visible = true) :=
  visibility_rule (initState [0]) ⟨1, [0]⟩ (by decide) (by decide)

/-- C2 (counterexample): with the base set and the frontier both the single
commit `0` and an empty edge stream, `includes_excludes` emits the seeded
base commit in `includes` — the claimed `includes = {}` is false on the code,
which scans the whole final Active Table, seeded entries included. -/
theorem single_base_empty_stream_counterexample :
    (includes_excludes [0] ([] : List (EdgeRecord Nat))).1 = [0] := by decide

/-- C2 (amended): when the base set B and the frontier F are the same single
commit H and the edge stream is empty, `includes_excludes` returns
`includes = {H}` and `excludes = {}`: H is seeded as `VisibleLeaf`, never
promoted, and the final scan therefore emits it in `includes`. -/
theorem single_base_empty_stream (H : Id) :
    includes_excludes [H] ([] : List (EdgeRecord Id)) = ([H], []) := rfl

/-- C3: when a record is classified not visible, every resolved parent whose
state is `InvisibleChild` (`PendingInvisible`) is removed from the Active
Table and its slot returned to the free pool — where it either still sits on
the free list or has already been reused for the record's own commit, which
was inserted right after the loop — the record's commit is inserted with
state `InvisibleChild`, and resolved parents in any other state keep both
their table entry and their arena state. -/
theorem invisible_branch_prunes (s : EngineState Id) (r : EdgeRecord Id)
    (hwf : WF s) (hvis : recordVisible s r = false) (hself : r.id ∉ r.parents) :
    (∀ p ∈ r.parents, ∀ idx, alistGet s.node_lookup p = some idx →
      (stateAt s.nodes idx = NodeState.InvisibleChild →
        alistGet (processRecord s r).node_lookup p = none ∧
        (idx ∈ (processRecord s r).free_slots ∨
          alistGet (processRecord s r).node_lookup r.id = some idx)) ∧
      (stateAt s.nodes idx ≠ NodeState.InvisibleChild →
        alistGet (processRecord s r).node_lookup p = some idx ∧
        stateAt (processRecord s r).nodes idx = stateAt s.nodes idx)) ∧
    (∃ j, alistGet (processRecord s r).node_lookup r.id = some j ∧
      stateAt (processRecord s r).nodes j = NodeState.InvisibleChild) := by
  have hv : ¬ (recordVisible s r = true) := by
    rw [hvis]
    exact Bool.false_ne_true
  have hpr : processRecord s r = insertNew
      (⟨s.nodes, (pruneParents s (resolveParents s r)).2,
        (pruneParents s (resolveParents s r)).1⟩ : EngineState Id) r.id
      NodeState.InvisibleChild := by
    rw [processRecord, if_neg hv]
  constructor
  · intro p hp idx hget
    have hpne : p ≠ r.id := fun h => hself (h ▸ hp)
    have hidxlt : idx < s.nodes.length := hwf.values_lt _ (alistGet_mem hget)
    have hgetfilter : alistGet (processRecord s r).node_lookup p =
        if p ∈ (prunedPairs s (resolveParents s r)).map Prod.fst then none
        else alistGet s.node_lookup p := by
      rw [hpr, insertNew_get_ne _ _ _ _ hpne]
      show alistGet (pruneParents s (resolveParents s r)).1 p = _
      rw [prune_lookup_eq, alistGet_filter_keys]
    constructor
    · intro hinv
      have hpP : (p, idx) ∈ prunedPairs s (resolveParents s r) :=
        mem_prunedPairs.mpr ⟨hp, hget, by rw [getElem?_of_stateAt s.nodes idx hidxlt, hinv]⟩
      have hpK : p ∈ (prunedPairs s (resolveParents s r)).map Prod.fst :=
        List.mem_map_of_mem Prod.fst hpP
      refine ⟨by rw [hgetfilter, if_pos hpK], ?_⟩
      have hidxF : idx ∈ (pruneParents s (resolveParents s r)).2 := by
        rw [prune_free_eq]
        exact List.mem_append_right _ (List.mem_map_of_mem Prod.snd hpP)
      rcases hl : (pruneParents s (resolveParents s r)).2.getLast? with _ | j
      · rw [List.getLast?_eq_none_iff] at hl
        rw [hl] at hidxF
        cases hidxF
      · have h2 : (pruneParents s (resolveParents s r)).2.dropLast ++ [j] =
            (pruneParents s (resolveParents s r)).2 :=
          List.dropLast_append_getLast? j (by simp [hl])
        rw [← h2] at hidxF
        rcases List.mem_append.mp hidxF with hmem | hmem
        · left
          rw [hpr, insertNew_free_eq]
          exact hmem
        · right
          have hij : idx = j := by simpa using hmem
          rw [hij, hpr]
          exact insertNew_get_self_of_getLast _ r.id _ j hl
    · intro hninv
      have hpnotK : p ∉ (prunedPairs s (resolveParents s r)).map Prod.fst := by
        intro hpK
        obtain ⟨q, hq, hq1⟩ := List.mem_map.mp hpK
        obtain ⟨_, hqget, hqinv⟩ := mem_prunedPairs.mp hq
        rw [hq1, hget] at hqget
        injection hqget with hq2
        rw [← hq2] at hqinv
        exact hninv (stateAt_of_getElem hqinv)
      refine ⟨by rw [hgetfilter, if_neg hpnotK]; exact hget, ?_⟩
      have hidxnotfree : idx ∉ (pruneParents s (resolveParents s r)).2 := by
        rw [prune_free_eq]
        intro hmem
        rcases List.mem_append.mp hmem with hmem1 | hmem1
        · exact hwf.disjoint _ (alistGet_mem hget) hmem1
        · obtain ⟨q, hq, hq2⟩ := List.mem_map.mp hmem1
          have hql : q ∈ s.node_lookup := prunedPairs_mem_lookup hq
          have hq2' : (q.1, idx) ∈ s.node_lookup := by
            rw [← hq2]
            cases q
            exact hql
          have hpl : (p, idx) ∈ s.node_lookup := alistGet_mem hget
          have hqp : q.1 = p := values_nodup_eq_key hwf.values_nodup hq2' hpl
          exact hpnotK (hqp ▸ List.mem_map_of_mem Prod.fst hq)
      rw [hpr]
      exact insertNew_stateAt_preserved
        (⟨s.nodes, (pruneParents s (resolveParents s r)).2,
          (pruneParents s (resolveParents s r)).1⟩ : EngineState Id) r.id
        NodeState.InvisibleChild idx hidxlt hidxnotfree
  · obtain ⟨j, hj, hst⟩ := processRecord_self_state s r hwf.values_lt hwf.free_lt
    rw [if_neg hv] at hst
    exact ⟨j, hj, hst⟩

/-- C3 (witness): the invisible branch at a concrete state — the record
`2 → [1]` arriving when commit 1 is `InvisibleChild`. -/
theorem invisible_branch_prunes_witness :
    (∀ p ∈ [1], ∀ idx,
      alistGet (runEngine [0] [⟨1, []⟩] : EngineState Nat).node_lookup p = some idx →
      (stateAt (runEngine [0] [⟨1, []⟩]).nodes idx = NodeState.InvisibleChild →
        alistGet (processRecord (runEngine [0] [⟨1, []⟩]) ⟨2, [1]⟩).node_lookup p = none ∧
        (idx ∈ (processRecord (runEngine [0] [⟨1, []⟩]) ⟨2, [1]⟩).free_slots ∨
          alistGet (processRecord (runEngine [0] [⟨1, []⟩]) ⟨2, [1]⟩).node_lookup 2 =
            some idx)) ∧
      (stateAt (runEngine [0] [⟨1, []⟩]).nodes idx ≠ NodeState.InvisibleChild →
        alistGet (processRecord (runEngine [0] [⟨1, []⟩]) ⟨2, [1]⟩).node_lookup p =
          some idx ∧
        stateAt (processRecord (runEngine [0] [⟨1, []⟩]) ⟨2, [1]⟩).nodes idx =
          stateAt (runEngine [0] [⟨1, []⟩]).nodes idx)) ∧
    (∃ j, alistGet (processRecord (runEngine [0] [⟨1, []⟩]) ⟨2, [1]⟩).node_lookup 2 =
        some j ∧
      stateAt (processRecord (runEngine [0] [⟨1, []⟩]) ⟨2, [1]⟩).nodes j =
        NodeState.InvisibleChild) :=
  invisible_branch_prunes (runEngine [0] [⟨1, []⟩]) ⟨2, [1]⟩
    (wf_runEngine [0] [⟨1, []⟩] (by decide)) (by decide) (by decide)

/-- C4: after the stream is exhausted the includes list holds exactly the ids
of the final Active Table whose state is `VisibleChild` (the spec's
`VisibleLeaf`), the excludes list exactly those in `InvisibleChild`
(`PendingInvisible`), and ids in `VisibleParent` (`VisibleInterior`) appear
in neither list. -/
theorem result_extraction (bases : List Id) (stream : List (EdgeRecord Id)) (x : Id) :
    (x ∈ (includes_excludes bases stream).1 ↔
      ∃ idx, alistGet (runEngine bases stream).node_lookup x = some idx ∧
        stateAt (runEngine bases stream).nodes idx = NodeState.VisibleChild) ∧
    (x ∈ (includes_excludes bases stream).2 ↔
      ∃ idx, alistGet (runEngine bases stream).node_lookup x = some idx ∧
        stateAt (runEngine bases stream).nodes idx = NodeState.InvisibleChild) ∧
    (∀ idx, alistGet (runEngine bases stream).node_lookup x = some idx →
      stateAt (runEngine bases stream).nodes idx = NodeState.VisibleParent →
        x ∉ (includes_excludes bases stream).1 ∧
        x ∉ (includes_excludes bases stream).2) := by
  have hk := runEngine_keys_nodup bases stream
  have hinc : (includes_excludes bases stream).1 =
      includesOfEntries (runEngine bases stream).nodes
        (runEngine bases stream).node_lookup := rfl
  have hexc : (includes_excludes bases stream).2 =
      excludesOfEntries (runEngine bases stream).nodes
        (runEngine bases stream).node_lookup := rfl
  have hmem1 : x ∈ (includes_excludes bases stream).1 ↔
      ∃ idx, alistGet (runEngine bases stream).node_lookup x = some idx ∧
        stateAt (runEngine bases stream).nodes idx = NodeState.VisibleChild := by
    rw [hinc, mem_includesOfEntries]
    constructor
    · rintro ⟨idx, hmem, hs⟩
      exact ⟨idx, alistGet_of_mem hk hmem, hs⟩
    · rintro ⟨idx, hget, hs⟩
      exact ⟨idx, alistGet_mem hget, hs⟩
  have hmem2 : x ∈ (includes_excludes bases stream).2 ↔
      ∃ idx, alistGet (runEngine bases stream).node_lookup x = some idx ∧
        stateAt (runEngine bases stream).nodes idx = NodeState.InvisibleChild := by
    rw [hexc, mem_excludesOfEntries]
    constructor
    · rintro ⟨idx, hmem, hs⟩
      exact ⟨idx, alistGet_of_mem hk hmem, hs⟩
    · rintro ⟨idx, hget, hs⟩
      exact ⟨idx, alistGet_mem hget, hs⟩
  refine ⟨hmem1, hmem2, ?_⟩
  intro idx hget hvp
  constructor
  · intro hx
    obtain ⟨idx', hget', hs'⟩ := hmem1.mp hx
    rw [hget] at hget'
    cases hget'
    rw [hvp] at hs'
    exact absurd hs' (by decide)
  · intro hx
    obtain ⟨idx', hget', hs'⟩ := hmem2.mp hx
    rw [hget] at hget'
    cases hget'
    rw [hvp] at hs'
    exact absurd hs' (by decide)

/-- One-step state monotonicity on a well-formed state: a commit already in
the Active Table and distinct from the incoming record's id either keeps its
slot and its state, has its state promoted `VisibleChild → VisibleParent`, or
— only if its state was `InvisibleChild` — is removed from the table. -/
theorem processRecord_state_monotone (s : EngineState Id) (r : EdgeRecord Id)
    (hwf : WF s) (x : Id) (idx : Nat)
    (hx : alistGet s.node_lookup x = some idx) (hne : x ≠ r.id) :
    (alistGet (processRecord s r).node_lookup x = none →
      stateAt s.nodes idx = NodeState.InvisibleChild) ∧
    (∀ idx', alistGet (processRecord s r).node_lookup x = some idx' →
      idx' = idx ∧
        (stateAt (processRecord s r).nodes idx = stateAt s.nodes idx ∨
          (stateAt s.nodes idx = NodeState.VisibleChild ∧
            stateAt (processRecord s r).nodes idx = NodeState.VisibleParent))) := by
  have hidxlt : idx < s.nodes.length := hwf.values_lt _ (alistGet_mem hx)
  have hidxnotfree : idx ∉ s.free_slots := hwf.disjoint _ (alistGet_mem hx)
  by_cases hv : recordVisible s r
  · have hpr : processRecord s r = insertNew
        (⟨promoteParents s.nodes (resolveParents s r), s.free_slots, s.node_lookup⟩ :
          EngineState Id) r.id NodeState.VisibleChild := by
      rw [processRecord, if_pos hv]
    have hget' : alistGet (processRecord s r).node_lookup x = some idx := by
      rw [hpr, insertNew_get_ne _ _ _ _ hne]
      exact hx
    constructor
    · intro hnone
      rw [hget'] at hnone
      cases hnone
    · intro idx' hsome
      rw [hget'] at hsome
      injection hsome with h
      refine ⟨h.symm, ?_⟩
      have hpres : stateAt (processRecord s r).nodes idx =
          stateAt (promoteParents s.nodes (resolveParents s r)) idx := by
        rw [hpr]
        exact insertNew_stateAt_preserved
          (⟨promoteParents s.nodes (resolveParents s r), s.free_slots, s.node_lookup⟩ :
            EngineState Id) r.id NodeState.VisibleChild idx
          (by
            show idx < (promoteParents s.nodes (resolveParents s r)).length
            rw [promoteParents_length]
            exact hidxlt)
          hidxnotfree
      rw [hpres]
      exact promoteParents_stateAt s.nodes (resolveParents s r) idx
  · have hpr : processRecord s r = insertNew
        (⟨s.nodes, (pruneParents s (resolveParents s r)).2,
          (pruneParents s (resolveParents s r)).1⟩ : EngineState Id) r.id
        NodeState.InvisibleChild := by
      rw [processRecord, if_neg hv]
    have hgetfilter : alistGet (processRecord s r).node_lookup x =
        if x ∈ (prunedPairs s (resolveParents s r)).map Prod.fst then none
        else alistGet s.node_lookup x := by
      rw [hpr, insertNew_get_ne _ _ _ _ hne]
      show alistGet (pruneParents s (resolveParents s r)).1 x = _
      rw [prune_lookup_eq, alistGet_filter_keys]
    by_cases hK : x ∈ (prunedPairs s (resolveParents s r)).map Prod.fst
    · constructor
      · intro _
        obtain ⟨q, hq, hq1⟩ := List.mem_map.mp hK
        obtain ⟨_, hqget, hqinv⟩ := mem_prunedPairs.mp hq
        rw [hq1, hx] at hqget
        injection hqget with h2
        rw [← h2] at hqinv
        exact stateAt_of_getElem hqinv
      · intro idx' hsome
        rw [hgetfilter, if_pos hK] at hsome
        cases hsome
    · constructor
      · intro hnone
        rw [hgetfilter, if_neg hK, hx] at hnone
        cases hnone
      · intro idx' hsome
        rw [hgetfilter, if_neg hK, hx] at hsome
        injection hsome with h
        refine ⟨h.symm, Or.inl ?_⟩
        have hnotfree2 : idx ∉ (pruneParents s (resolveParents s r)).2 := by
          rw [prune_free_eq]
          intro hmem
          rcases List.mem_append.mp hmem with h1 | h1
          · exact hidxnotfree h1
          · obtain ⟨q, hq, hq2⟩ := List.mem_map.mp h1
            have hql : (q.1, idx) ∈ s.node_lookup := by
              rw [← hq2]
              have := prunedPairs_mem_lookup hq
              cases q
              exact this
            have hxl : (x, idx) ∈ s.node_lookup := alistGet_mem hx
            have hqx : q.1 = x := values_nodup_eq_key hwf.values_nodup hql hxl
            exact hK (hqx ▸ List.mem_map_of_mem Prod.fst hq)
        rw [hpr]
        exact insertNew_stateAt_preserved
          (⟨s.nodes, (pruneParents s (resolveParents s r)).2,
            (pruneParents s (resolveParents s r)).1⟩ : EngineState Id) r.id
          NodeState.InvisibleChild idx hidxlt hnotfree2

/-- C5 (counterexample): after `1 → []` and `2 → [1, 1]` (a duplicate
invisible parent frees slot 1 twice), commit 2 is tracked at slot 1 in state
`InvisibleChild`; processing `3 → [0]` pops the still-free duplicate of slot
1 and writes `VisibleChild` into it, so commit 2's classification flips from
invisible to visible — and 2 is even emitted in the final includes list. -/
theorem invisible_commit_turns_visible :
    alistGet (runEngine [0] [⟨1, []⟩, ⟨2, [1, 1]⟩]).node_lookup 2 = some 1 ∧
    stateAt (runEngine [0] [⟨1, []⟩, ⟨2, [1, 1]⟩]).nodes 1 = NodeState.InvisibleChild ∧
    alistGet (runEngine [0] [⟨1, []⟩, ⟨2, [1, 1]⟩, ⟨3, [0]⟩]).node_lookup 2 = some 1 ∧
    stateAt (runEngine [0] [⟨1, []⟩, ⟨2, [1, 1]⟩, ⟨3, [0]⟩]).nodes 1 =
      NodeState.VisibleChild ∧
    2 ∈ (includes_excludes [0] [⟨1, []⟩, ⟨2, [1, 1]⟩, ⟨3, [0]⟩]).1 :=
  ⟨by decide, by decide, by decide, by decide, by decide⟩

/-- C5 (amended): in a run whose records never list the same parent id twice,
a commit tracked in the Active Table keeps its slot, and its state changes at
most by the single promotion `VisibleChild → VisibleParent`; it leaves the
table only while in state `InvisibleChild`.  No classification ever changes
between visible and invisible. -/
theorem state_monotone (bases : List Id) (pre : List (EdgeRecord Id)) (r : EdgeRecord Id)
    (hpre : ∀ rec ∈ pre, rec.parents.Nodup) (x : Id) (idx : Nat)
    (hx : alistGet (runEngine bases pre).node_lookup x = some idx)
    (hne : x ≠ r.id) :
    (alistGet (runEngine bases (pre ++ [r])).node_lookup x = none →
      stateAt (runEngine bases pre).nodes idx = NodeState.InvisibleChild) ∧
    (∀ idx', alistGet (runEngine bases (pre ++ [r])).node_lookup x = some idx' →
      idx' = idx ∧
        (stateAt (runEngine bases (pre ++ [r])).nodes idx =
            stateAt (runEngine bases pre).nodes idx ∨
          (stateAt (runEngine bases pre).nodes idx = NodeState.VisibleChild ∧
            stateAt (runEngine bases (pre ++ [r])).nodes idx =
              NodeState.VisibleParent))) := by
  have hstep : runEngine bases (pre ++ [r]) = processRecord (runEngine bases pre) r := by
    rw [runEngine, runEngine, List.foldl_append]
    rfl
  rw [hstep]
  exact processRecord_state_monotone (runEngine bases pre) r
    (wf_runEngine bases pre hpre) x idx hx hne

/-- C5 (witness): the base commit 0 is promoted `VisibleChild →
VisibleParent` by record `1 → [0]` and then keeps slot and state across
record `2 → [1]`. -/
theorem state_monotone_witness :
    (alistGet (runEngine [0] ([⟨1, [0]⟩] ++ [⟨2, [1]⟩]) : EngineState Nat).node_lookup 0 =
        none →
      stateAt (runEngine [0] [⟨1, [0]⟩]).nodes 0 = NodeState.InvisibleChild) ∧
    (∀ idx', alistGet (runEngine [0] ([⟨1, [0]⟩] ++ [⟨2, [1]⟩])).node_lookup 0 =
        some idx' →
      idx' = 0 ∧
        (stateAt (runEngine [0] ([⟨1, [0]⟩] ++ [⟨2, [1]⟩])).nodes 0 =
            stateAt (runEngine [0] [⟨1, [0]⟩]).nodes 0 ∨
          (stateAt (runEngine [0] [⟨1, [0]⟩]).nodes 0 = NodeState.VisibleChild ∧
            stateAt (runEngine [0] ([⟨1, [0]⟩] ++ [⟨2, [1]⟩])).nodes 0 =
              NodeState.VisibleParent))) :=
  state_monotone [0] [⟨1, [0]⟩] ⟨2, [1]⟩ (by decide) 0 0 (by decide) (by decide)

/-- C6: insertion reuses the slot most recently pushed onto the free list
whenever the free list is nonempty — the arena length is unchanged and the
popped slot is removed from the free list — and grows the arena by exactly
one slot only when the free list is empty. -/
theorem insertion_reuses_lifo (s : EngineState Id) (id : Id) (st : NodeState) :
    (∀ idx, s.free_slots.getLast? = some idx →
      alistGet (insertNew s id st).node_lookup id = some idx ∧
      (insertNew s id st).nodes.length = s.nodes.length ∧
      (insertNew s id st).free_slots = s.free_slots.dropLast) ∧
    (∀ (fs : List Nat) (idx : Nat), s.free_slots = fs ++ [idx] →
      alistGet (insertNew s id st).node_lookup id = some idx) ∧
    (s.free_slots = [] →
      alistGet (insertNew s id st).node_lookup id = some s.nodes.length ∧
      (insertNew s id st).nodes.length = s.nodes.length + 1) := by
  refine ⟨?_, ?_, ?_⟩
  · intro idx h
    simp only [insertNew, h]
    exact ⟨alistGet_insert_self _ _ _, List.length_set .., trivial⟩
  · intro fs idx h
    have hlast : s.free_slots.getLast? = some idx := by
      rw [h]
      exact List.getLast?_concat fs
    simp only [insertNew, hlast]
    exact alistGet_insert_self _ _ _
  · intro h
    have hlast : s.free_slots.getLast? = none := by
      rw [h]
      rfl
    simp only [insertNew, hlast]
    exact ⟨alistGet_insert_self _ _ _, by simp⟩

/-- C6 (witness): concrete instantiations of both branches of
`insertion_reuses_lifo`. -/
theorem insertion_reuses_lifo_witness :
    alistGet (insertNew (⟨[NodeState.VisibleChild, NodeState.InvisibleChild], [1], [(0, 0)]⟩ :
        EngineState Nat) 7 NodeState.InvisibleChild).node_lookup 7 = some 1 ∧
    (insertNew (⟨[NodeState.VisibleChild], [], [(0, 0)]⟩ : EngineState Nat) 7
        NodeState.VisibleChild).nodes.length = 2 := by
  constructor
  · exact ((insertion_reuses_lifo _ 7 NodeState.InvisibleChild).1 1 (by decide)).1
  · exact ((insertion_reuses_lifo _ 7 NodeState.VisibleChild).2.2 (by decide)).2

/-- C7: the `expect("empty rev-list output line")` abort can never fire: the
range iterator always yields at least one id range, so every line — the empty
line included — parses successfully; an empty line becomes an edge record
with the empty commit id and no parents instead of aborting the whole
computation, contradicting both the panic message and the spec's fatal
contract violation. -/
theorem malformed_line_no_abort :
    parseLine [] = some { id := [], parents := [] } ∧
    ∀ line, (parseLine line).isSome = true := by
  refine ⟨rfl, ?_⟩
  intro line
  rcases h : splitOnSpace line with _ | ⟨idh, ps⟩
  · exact absurd h (splitOnSpace_ne_nil line)
  · simp [parseLine, h]

/-- C8: the decoder contradicts the spec's hex semantics: on "12" (bytes
49, 50) it returns byte 64 — `hi << 4 + lo` is `hi << (4 + lo)` by Rust
precedence — instead of 0x12 = 18; on "AB" it rejects 'B' with `NotHexError`
because the uppercase arm reads `b'A'..=b'A'`; and "ff" panics in debug
builds (shift amount 4 + 15 ≥ 8).  The spec-faithful decoder
`spec_hex_decode` is evaluated alongside for contrast. -/
theorem hex_decode_diverges :
    git_id_try_from [49, 50] = TryFromResult.ok [64] ∧
    spec_hex_decode [49, 50] = some [18] ∧
    git_id_try_from [65, 66] = TryFromResult.notHex ∧
    spec_hex_decode [65, 66] = some [171] ∧
    git_id_try_from [102, 102] = TryFromResult.panicked :=
  ⟨rfl, rfl, rfl, rfl, rfl⟩

/-- C9: the final extraction scan is independent of the Active-Table
iteration order: any two enumeration orders of the final table (the Rust
`HashMap` iterates in unspecified order) yield the same includes and the same
excludes as sets of ids, so re-running the engine on identical inputs always
produces identical result sets. -/
theorem extraction_order_deterministic (bases : List Id) (stream : List (EdgeRecord Id))
    (e1 e2 : List (Id × Nat))
    (h1 : e1.Perm (runEngine bases stream).node_lookup)
    (h2 : e2.Perm (runEngine bases stream).node_lookup) (x : Id) :
    (x ∈ includesOfEntries (runEngine bases stream).nodes e1 ↔
      x ∈ includesOfEntries (runEngine bases stream).nodes e2) ∧
    (x ∈ excludesOfEntries (runEngine bases stream).nodes e1 ↔
      x ∈ excludesOfEntries (runEngine bases stream).nodes e2) := by
  have hp : e1.Perm e2 := h1.trans h2.symm
  exact ⟨(hp.filterMap _).mem_iff, (hp.filterMap _).mem_iff⟩

/-- C9 (witness): two concrete enumeration orders of the same final table. -/
theorem extraction_order_deterministic_witness :
    (1 ∈ includesOfEntries (runEngine [0] [⟨1, [0]⟩]).nodes [(1, 1), (0, 0)] ↔
      1 ∈ includesOfEntries (runEngine [0] [⟨1, [0]⟩]).nodes [(0, 0), (1, 1)]) ∧
    (1 ∈ excludesOfEntries (runEngine [0] [⟨1, [0]⟩]).nodes [(1, 1), (0, 0)] ↔
      1 ∈ excludesOfEntries (runEngine [0] [⟨1, [0]⟩]).nodes [(0, 0), (1, 1)]) :=
  extraction_order_deterministic [0] [⟨1, [0]⟩] [(1, 1), (0, 0)] [(0, 0), (1, 1)]
    (by decide) (by decide) 1

/-- C10 (counterexample): after the stream `1 → []`, `2 → [1, 1]` — the
second record lists the same invisible parent twice, so its slot is pushed
onto the free list twice — slot 1 is simultaneously the live slot of commit 2
and a member of the free list: the claimed disjointness fails. -/
theorem duplicate_parent_breaks_disjointness :
    (2, 1) ∈ (runEngine [0] [⟨1, []⟩, ⟨2, [1, 1]⟩]).node_lookup ∧
    1 ∈ (runEngine [0] [⟨1, []⟩, ⟨2, [1, 1]⟩]).free_slots ∧
    ¬ (∀ e ∈ (runEngine [0] [⟨1, []⟩, ⟨2, [1, 1]⟩]).node_lookup,
        e.2 ∉ (runEngine [0] [⟨1, []⟩, ⟨2, [1, 1]⟩]).free_slots) := by
  refine ⟨by decide, by decide, ?_⟩
  intro hcontra
  exact hcontra (2, 1) (by decide) (by decide)

/-- C10 (amended): provided no record lists the same parent id more than
once, then after any stream prefix — hence at every point of a run — the slot
values of the Active Table are pairwise distinct, they are disjoint from the
free list, and the free list holds no duplicate index. -/
theorem slot_invariant_nodup_parents (bases : List Id) (stream : List (EdgeRecord Id))
    (h : ∀ r ∈ stream, r.parents.Nodup) :
    ((runEngine bases stream).node_lookup.map Prod.snd).Nodup ∧
    (runEngine bases stream).free_slots.Nodup ∧
    ∀ e ∈ (runEngine bases stream).node_lookup,
      e.2 ∉ (runEngine bases stream).free_slots := by
  have hwf := wf_runEngine bases stream h
  exact ⟨hwf.values_nodup, hwf.free_nodup, hwf.disjoint⟩

/-- C10 (witness): the amended invariant at a concrete duplicate-free run. -/
theorem slot_invariant_nodup_parents_witness :
    ((runEngine [0] [⟨1, []⟩, ⟨2, [1]⟩]).node_lookup.map Prod.snd).Nodup ∧
    (runEngine [0] [⟨1, []⟩, ⟨2, [1]⟩]).free_slots.Nodup ∧
    ∀ e ∈ (runEngine [0] [⟨1, []⟩, ⟨2, [1]⟩]).node_lookup,
      e.2 ∉ (runEngine [0] [⟨1, []⟩, ⟨2, [1]⟩]).free_slots :=
  slot_invariant_nodup_parents [0] [⟨1, []⟩, ⟨2, [1]⟩] (by decide)

end GitTree
